import Mathlib

/-!
Verification of the Petri-net discrete-event engine in `src/Model`
(`Position.py`, `Transition.py`, `Model.py`, `Statistics.py`, `Record.py`).

Embedding conventions:
* Python floats (simulation times, delays, busy times) are embedded as exact
  integers (`Int`).  The engine manipulates times only with `+`, `-`, `min`,
  `max` and comparisons, so the dynamics is representation-independent; every
  concrete run examined here uses integer instants.
* Python `int` token counts are embedded as `Int` (they may in principle go
  negative, which is exactly what the non-negativity claims are about).
* A Python `set` of floats (`Transition.output_times`) is embedded as a
  duplicate-free `List Int` manipulated with `List.insert` (add), `List.erase`
  (remove) and membership, which reproduces Python set semantics.
* Python dicts keyed by name are embedded as lists in insertion order;
  lookups find the entry by name, updates map over entries of that name.
* The stochastic delay samples (`np.random.normal`) are supplied by an
  explicit stream (`List Int`) consumed one draw per sampling call; the
  recorded mean/std of each sampler are carried as documentation only.
* The `on_start` / `on_complete` hooks only append transmission records and
  failure times to the statistics sink; they never touch the marking, the
  pending output times or the clock, so the engine embedding elides them and
  the record log enters only as a parameter of the statistics update.
* A raised Python exception (`ZeroDivisionError`, `KeyError`) is embedded as
  the `fail` constructor of an explicit result type.
-/

namespace MSCW

/-- `Position` from `src/Model/Position.py`: a named counter with occupancy
statistics.  Field names follow the source (`total_tokens` is the cumulative
inflow counter, called `total_inflow` in the spec). -/
structure Position where
  name : String
  tokens : Int
  total_tokens : Int
  total_busy_time : Int
  last_change_time : Int
  max_tokens : Int
deriving DecidableEq

/-- `Position.__init__(name, tokens=0)`. -/
def Position.create (name : String) (tokens : Int := 0) : Position :=
  { name := name, tokens := tokens, total_tokens := tokens,
    total_busy_time := 0, last_change_time := 0, max_tokens := tokens }

/-- `Position.update_busy_time`: accumulate busy time over the elapsed
interval if the (pre-mutation) token count is positive, then stamp
`last_change_time`. -/
def Position.update_busy_time (p : Position) (current_time : Int) : Position :=
  let p1 := if p.tokens > 0 then
    { p with total_busy_time := p.total_busy_time + (current_time - p.last_change_time) }
    else p
  { p1 with last_change_time := current_time }

/-- `Position.add_tokens`: busy-time update, then increment `tokens` and
`total_tokens`, then refresh `max_tokens`. -/
def Position.add_tokens (p : Position) (count : Int) (current_time : Int) : Position :=
  let q := p.update_busy_time current_time
  let q := { q with tokens := q.tokens + count, total_tokens := q.total_tokens + count }
  { q with max_tokens := max q.max_tokens q.tokens }

/-- `Position.remove_tokens`: busy-time update, then decrement `tokens`. -/
def Position.remove_tokens (p : Position) (count : Int) (current_time : Int) : Position :=
  let q := p.update_busy_time current_time
  { q with tokens := q.tokens - count }

/-- `Position.has_tokens`: `tokens >= count if count > 0 else False`. -/
def Position.has_tokens (p : Position) (count : Int) : Bool :=
  if count > 0 then decide (p.tokens ≥ count) else false

/-- A delay sampler.  `const c` embeds `lambda: c` (including the default
`lambda: 0` used when no delay function is given); `clampedNormal mean std`
embeds `lambda: max(0, np.random.normal(mean, std))`, drawing the raw normal
sample from the head of the stream. -/
inductive DelaySpec where
  | const : Int → DelaySpec
  | clampedNormal : Int → Int → DelaySpec
deriving DecidableEq

/-- Evaluate a delay sampler against the random stream, returning the delay
and the rest of the stream. -/
def sampleDelay : DelaySpec → List Int → Int × List Int
  | .const c, r => (c, r)
  | .clampedNormal _ _, r => (max 0 (r.headD 0), r.tail)

/-- `Transition` from `src/Model/Transition.py`.  `input_arcs` entries are
`(position name, weight, is_info)`; `output_arcs` entries are
`(position name, weight)`.  `output_times` is the Python set of pending
output instants. -/
structure Transition where
  name : String
  input_arcs : List (String × Int × Bool)
  output_arcs : List (String × Int)
  delay : DelaySpec
  priority : Int
  output_times : List Int
deriving DecidableEq

/-- Dict lookup `positions[pos_name]` (`none` embeds a `KeyError`). -/
def getPos (ps : List Position) (pname : String) : Option Position :=
  ps.find? (fun p => p.name = pname)

/-- Mutation of the dict entry named `pname` (positions are mutated in place
in the source; names are unique dict keys). -/
def updatePos (ps : List Position) (pname : String) (f : Position → Position) : List Position :=
  ps.map (fun p => if p.name = pname then f p else p)

/-- The capacity test `positions[pos_name].has_tokens(weight)`; a missing
position (a configuration error per the spec, impossible in the shipped
nets) is embedded as not enabled. -/
def hasTokensAt (ps : List Position) (pname : String) (w : Int) : Bool :=
  match getPos ps pname with
  | some p => p.has_tokens w
  | none => false

/-- `Transition.check_input_conditions`: every input arc's position passes
`has_tokens` for that arc's weight. -/
def Transition.check_input_conditions (t : Transition) (ps : List Position) : Bool :=
  t.input_arcs.all (fun a => hasTokensAt ps a.1 a.2.1)

/-- `Transition.is_enabled`: locally enabled and not preempted by any other
transition of strictly higher priority that is also locally enabled. -/
def Transition.is_enabled (t : Transition) (ps : List Position)
    (all_transitions : List Transition) : Bool :=
  t.check_input_conditions ps &&
  all_transitions.all (fun other =>
    decide (other.name = t.name) ||
    ! (decide (other.priority > t.priority) && other.check_input_conditions ps))

/-- `Transition.fire_input`: remove tokens along non-guard input arcs, sample
the delay, and add the output instant (`current_time + delay` when the delay
is positive, else `current_time`) to the pending set.  Returns the updated
transition, positions and random stream.  (The `on_start` hook, which only
records statistics, is elided.) -/
def Transition.fire_input (t : Transition) (ps : List Position) (current_time : Int)
    (rand : List Int) : Transition × List Position × List Int :=
  let ps' := t.input_arcs.foldl (fun acc a =>
    if a.2.2 then acc
    else updatePos acc a.1 (fun p => p.remove_tokens a.2.1 current_time)) ps
  let d := (sampleDelay t.delay rand).1
  let t' := if d > 0 then { t with output_times := t.output_times.insert (current_time + d) }
            else { t with output_times := t.output_times.insert current_time }
  (t', ps', (sampleDelay t.delay rand).2)

/-- `Transition.fire_output`: add tokens along every output arc.  (The
`on_complete` hook, which only finalizes a statistics record, is elided.) -/
def Transition.fire_output (t : Transition) (ps : List Position) (current_time : Int) :
    List Position :=
  t.output_arcs.foldl (fun acc a => updatePos acc a.1 (fun p => p.add_tokens a.2 current_time)) ps

/-- The engine state of `Model`: clock, horizon, position dict, transition
dict (in insertion order) and the stream of raw normal draws. -/
structure EngineState where
  current_time : Int
  t_mod : Int
  positions : List Position
  transitions : List Transition
  rand : List Int
deriving DecidableEq

/-- `min(times)` over a collected list; `none` embeds `float('inf')` for the
empty case. -/
def listMin : List Int → Option Int
  | [] => none
  | x :: xs => match listMin xs with
    | none => some x
    | some m => some (min x m)

/-- `Model._find_next_event_time`: extend a list with every transition's
pending output times and take the minimum. -/
def find_next_event_time (ts : List Transition) : Option Int :=
  listMin (ts.foldl (fun acc t => acc ++ t.output_times) [])

/-- The loop body of `Model._process_outputs`: walk the transitions in dict
order; when the current instant is pending for one, remove it and fire the
output. -/
def process_outputs_aux (now : Int) : List Transition → List Position →
    List Transition × List Position
  | [], ps => ([], ps)
  | t :: rest, ps =>
    if now ∈ t.output_times then
      let t' := { t with output_times := t.output_times.erase now }
      let ps' := t'.fire_output ps now
      let r := process_outputs_aux now rest ps'
      (t' :: r.1, r.2)
    else
      let r := process_outputs_aux now rest ps
      (t :: r.1, r.2)

/-- `Model._process_outputs`. -/
def process_outputs (st : EngineState) : EngineState :=
  { st with
    transitions := (process_outputs_aux st.current_time st.transitions st.positions).1,
    positions := (process_outputs_aux st.current_time st.transitions st.positions).2 }

/-- Lexicographic byte-wise string comparison, as Python compares `str`. -/
def charListLe : List Char → List Char → Bool
  | [], _ => true
  | _ :: _, [] => false
  | a :: as, b :: bs =>
    if a.toNat < b.toNat then true
    else if b.toNat < a.toNat then false
    else charListLe as bs

/-- String comparison on the underlying character lists. -/
def strLe (a b : String) : Bool := charListLe a.data b.data

/-- The sort key of `Model._process_enabled_transitions`:
`(-priority, name)` ascending. -/
def keyLe (a b : Transition) : Bool :=
  decide (b.priority < a.priority) ||
  (decide (a.priority = b.priority) && strLe a.name b.name)

/-- Insertion step of the sort by `keyLe`. -/
def insertSorted (x : Transition) : List Transition → List Transition
  | [] => [x]
  | y :: ys => if keyLe x y then x :: y :: ys else y :: insertSorted x ys

/-- `sorted(self.transitions.values(), key=lambda t: (-t.priority, t.name))`. -/
def sortTransitions : List Transition → List Transition
  | [] => []
  | x :: xs => insertSorted x (sortTransitions xs)

/-- The transition fired by `Model._process_enabled_transitions`: the first
enabled one in priority/name order. -/
def enabledChoice (st : EngineState) : Option Transition :=
  (sortTransitions st.transitions).find?
    (fun t => t.is_enabled st.positions st.transitions)

/-- Replace the dict entry named `tname` (in-place mutation of the selected
transition object in the source). -/
def updateTrans (ts : List Transition) (tname : String) (t' : Transition) : List Transition :=
  ts.map (fun u => if u.name = tname then t' else u)

/-- `Model._process_enabled_transitions`: fire the first enabled transition
in sorted order; `none` embeds the `False` return (no transition enabled). -/
def process_enabled_transitions (st : EngineState) : Option EngineState :=
  match enabledChoice st with
  | none => none
  | some t =>
    let r := t.fire_input st.positions st.current_time st.rand
    some { st with positions := r.2.1, rand := r.2.2,
                   transitions := updateTrans st.transitions t.name r.1 }

/-- The inner fixpoint `while self._process_enabled_transitions(): pass`,
bounded by fuel (the source loop is unbounded; every lemma below holds for
every fuel value). -/
def fireLoop : Nat → EngineState → EngineState
  | 0, st => st
  | n + 1, st =>
    match process_enabled_transitions st with
    | none => st
    | some st' => fireLoop n st'

/-- The `while self.current_time < self.t_mod` loop of `Model.run`, bounded
by fuel `n`; `m` bounds the inner firing fixpoint.  One iteration: find the
next event time (stop on `float('inf')`), advance the clock, process due
outputs, then run the firing fixpoint. -/
def runState (m : Nat) : Nat → EngineState → EngineState
  | 0, st => st
  | n + 1, st =>
    if st.current_time < st.t_mod then
      match find_next_event_time st.transitions with
      | none => st
      | some tnext =>
          runState m n (fireLoop m (process_outputs { st with current_time := tnext }))
    else st

/-- Ghost instrumentation of `runState`: the sequence of event times the loop
advances to and processes (in order). -/
def runTrace (m : Nat) : Nat → EngineState → List Int
  | 0, _ => []
  | n + 1, st =>
    if st.current_time < st.t_mod then
      match find_next_event_time st.transitions with
      | none => []
      | some tnext =>
          tnext :: runTrace m n (fireLoop m (process_outputs { st with current_time := tnext }))
    else []

/-- `TransmissionRecord` from `src/Model/Record.py`. -/
structure TransmissionRecord where
  start_time : Int
  end_time : Int
  channel : String
  completed : Bool
deriving DecidableEq

/-- `TransmissionRecord.transmission_time`: `-1` unless completed. -/
def TransmissionRecord.transmission_time (r : TransmissionRecord) : Int :=
  if r.completed then r.end_time - r.start_time else -1

/-- The fields `Statistics.update` derives from the final model state (the
per-transmission moment statistics computed afterwards by
`_calculate_transmission_statistics` are out of the claims' scope and
elided).  `max_queue_length` holds the final overwritten value
`P3.max_tokens + P4.max_tokens` (the earlier `P2.max_tokens` assignment is
dead in the source). -/
structure StatsResult where
  total_messages : Int
  transmitted_messages : Int
  failures : Int
  max_queue_length : Int
  util_main : ℚ
  util_reserve : ℚ
  main_channel_failure_rate : ℚ
  settled_positions : List Position
deriving DecidableEq

/-- Result of a statistics update: `ok` or a raised Python exception. -/
inductive StatsOutcome where
  | ok : StatsResult → StatsOutcome
  | fail : String → StatsOutcome
deriving DecidableEq

/-- The settling loop of `Statistics.update`:
`for pos in model.positions.values(): pos.update_busy_time(total_time)`. -/
def settle_positions (ps : List Position) (total_time : Int) : List Position :=
  ps.map (fun p => p.update_busy_time total_time)

/-- `Statistics.update(model)`: settle every position to the final clock
value, read the shipped-model counters, and compute the channel-utilization
ratios by dividing record counts by `P5.tokens` with no zero guard — a run
with zero transmitted messages raises `ZeroDivisionError` there.  Missing
position names would raise `KeyError` (never the case in the shipped net). -/
def statisticsUpdate (model : EngineState) (records : List TransmissionRecord) : StatsOutcome :=
  match getPos (settle_positions model.positions model.current_time) "P1",
        getPos (settle_positions model.positions model.current_time) "P5",
        getPos (settle_positions model.positions model.current_time) "P7",
        getPos (settle_positions model.positions model.current_time) "P2",
        getPos (settle_positions model.positions model.current_time) "P3",
        getPos (settle_positions model.positions model.current_time) "P4" with
  | some p1, some p5, some p7, some _, some p3, some p4 =>
    if p5.tokens = 0 then .fail "ZeroDivisionError"
    else
      .ok { total_messages := p1.total_tokens,
            transmitted_messages := p5.tokens,
            failures := p7.total_tokens,
            max_queue_length := p3.max_tokens + p4.max_tokens,
            util_main :=
              (((records.filter (fun r => r.completed && decide (r.channel = "main"))).length
                : Int) : ℚ) / (p5.tokens : ℚ),
            util_reserve :=
              (((records.filter (fun r => r.completed && decide (r.channel = "reserve"))).length
                : Int) : ℚ) / (p5.tokens : ℚ),
            main_channel_failure_rate :=
              if model.current_time > 0 then
                (p7.total_tokens : ℚ) / (model.current_time : ℚ)
              else 0,
            settled_positions := settle_positions model.positions model.current_time }
  | _, _, _, _, _, _ => .fail "KeyError"

/-- `Model.run`: the while loop followed unconditionally by
`self.statistics.update(self)`. -/
def modelRun (m n : Nat) (st : EngineState) (records : List TransmissionRecord) :
    EngineState × StatsOutcome :=
  (runState m n st, statisticsUpdate (runState m n st) records)

/-! The shipped net built by `Model.__init__` / `_create_positions` /
`_create_transitions` with the default parameters (which coincide with the
values passed under `__main__`). -/

/-- `Model._create_positions`. -/
def create_positions : List Position :=
  [Position.create "P1" 1, Position.create "P2", Position.create "P3",
   Position.create "P4", Position.create "P5", Position.create "P6" 1,
   Position.create "P7" 1, Position.create "P8" 1, Position.create "P9",
   Position.create "P10", Position.create "P11", Position.create "P12"]

/-- Transition `T1` (message arrival). -/
def T1def : Transition :=
  { name := "T1", input_arcs := [("P1", 1, false)],
    output_arcs := [("P2", 1), ("P1", 1)],
    delay := .clampedNormal 9 4, priority := 0, output_times := [] }

/-- Transition `T2` (queue to main channel, guarded by `P8`). -/
def T2def : Transition :=
  { name := "T2", input_arcs := [("P2", 1, false), ("P8", 1, true)],
    output_arcs := [("P3", 1)],
    delay := .const 0, priority := 0, output_times := [] }

/-- Transition `T3` (queue to reserve channel, guarded by `P11`). -/
def T3def : Transition :=
  { name := "T3", input_arcs := [("P2", 1, false), ("P11", 1, true)],
    output_arcs := [("P4", 1)],
    delay := .const 0, priority := 0, output_times := [] }

/-- Transition `T4` (main-channel transmission, priority 1). -/
def T4def : Transition :=
  { name := "T4", input_arcs := [("P3", 1, false), ("P6", 1, false), ("P8", 1, true)],
    output_arcs := [("P5", 1), ("P6", 1)],
    delay := .clampedNormal 7 3, priority := 1, output_times := [] }

/-- Transition `T5` (reserve-channel transmission). -/
def T5def : Transition :=
  { name := "T5", input_arcs := [("P4", 1, false), ("P6", 1, false)],
    output_arcs := [("P5", 1), ("P6", 1)],
    delay := .clampedNormal 7 3, priority := 0, output_times := [] }

/-- Transition `T6` (its `P8` arc has weight `0`). -/
def T6def : Transition :=
  { name := "T6", input_arcs := [("P3", 1, false), ("P8", 0, true)],
    output_arcs := [("P2", 1)],
    delay := .const 0, priority := 0, output_times := [] }

/-- Transition `T7` (failure generator). -/
def T7def : Transition :=
  { name := "T7", input_arcs := [("P7", 1, false)],
    output_arcs := [("P10", 1), ("P9", 1), ("P7", 1)],
    delay := .clampedNormal 200 35, priority := 0, output_times := [] }

/-- Transition `T9` (recovery). -/
def T9def : Transition :=
  { name := "T9", input_arcs := [("P10", 1, false), ("P8", 1, false)],
    output_arcs := [("P12", 1)],
    delay := .clampedNormal 23 7, priority := 0, output_times := [] }

/-- Transition `T8` (fixed delay 2). -/
def T8def : Transition :=
  { name := "T8", input_arcs := [("P9", 1, false)],
    output_arcs := [("P11", 1)],
    delay := .const 2, priority := 0, output_times := [] }

/-- Transition `T10`. -/
def T10def : Transition :=
  { name := "T10", input_arcs := [("P11", 1, false), ("P12", 1, false)],
    output_arcs := [("P8", 1)],
    delay := .const 0, priority := 0, output_times := [] }

/-- `Model._create_transitions`, in dict insertion order (`T9` is inserted
before `T8` in the source). -/
def create_transitions : List Transition :=
  [T1def, T2def, T3def, T4def, T5def, T6def, T7def, T9def, T8def, T10def]

/-- `Model._generate_arrival_time`:
`current_time + np.random.normal(arrival_mean, arrival_std)` — note the raw
sample is NOT clamped, unlike the transition delay lambdas. -/
def generate_arrival_time (current_time : Int) (rand : List Int) : Int × List Int :=
  (current_time + rand.headD 0, rand.tail)

/-- `Model._generate_failure_time`: likewise unclamped. -/
def generate_failure_time (current_time : Int) (rand : List Int) : Int × List Int :=
  (current_time + rand.headD 0, rand.tail)

/-- `Model.__init__(t_mod, params)`: clock 0, shipped positions and
transitions, then seed `T1` and `T7` with one pending output each. -/
def initModel (t_mod : Int) (rand : List Int) : EngineState :=
  let a := generate_arrival_time 0 rand
  let f := generate_failure_time 0 a.2
  { current_time := 0, t_mod := t_mod,
    positions := create_positions,
    transitions :=
      updateTrans
        (updateTrans create_transitions "T1"
          { T1def with output_times := T1def.output_times.insert a.1 })
        "T7" { T7def with output_times := T7def.output_times.insert f.1 },
    rand := f.2 }

/-! Predicates used by the invariant theorems, and the small concrete nets
used to instantiate them. -/

/-- Every position currently holds a non-negative token count. -/
abbrev NonnegMarking (ps : List Position) : Prop := ∀ p ∈ ps, 0 ≤ p.tokens

/-- Structural facts that hold of any net built from Python dicts as the
shipped one is: position names are unique dict keys, each transition's input
arcs are keyed by distinct position names, and output arc weights are
non-negative. -/
abbrev NetWellFormed (st : EngineState) : Prop :=
  (st.positions.map Position.name).Nodup ∧
  ∀ t ∈ st.transitions, (t.input_arcs.map Prod.fst).Nodup ∧ ∀ a ∈ t.output_arcs, 0 ≤ a.2

/-- Per-position clock invariant at clock value `now`: accumulated busy time
is non-negative and bounded by the last-change stamp, which lags the clock. -/
abbrev PosInvAt (now : Int) (p : Position) : Prop :=
  0 ≤ p.total_busy_time ∧ p.total_busy_time ≤ p.last_change_time ∧
  p.last_change_time ≤ now

/-- The clock-related invariant: every position's busy-time statistics lag
the clock, and every pending output instant is not in the past. -/
abbrev TimeInv (st : EngineState) : Prop :=
  (∀ p ∈ st.positions, PosInvAt st.current_time p) ∧
  ∀ t ∈ st.transitions, ∀ x ∈ t.output_times, st.current_time ≤ x

/-- The output instant `fire_input` adds to the pending set. -/
def scheduledTime (t : Transition) (current_time : Int) (rand : List Int) : Int :=
  if (sampleDelay t.delay rand).1 > 0 then current_time + (sampleDelay t.delay rand).1
  else current_time

/-- Scenario net for the horizon claim: one pending output at instant `15`,
horizon `10`; the output transition's own input position `Q` is empty. -/
def exHorizon : EngineState :=
  { current_time := 0, t_mod := 10,
    positions := [Position.create "P", Position.create "Q"],
    transitions := [{ name := "TX", input_arcs := [("Q", 1, false)],
                      output_arcs := [("P", 1)], delay := .const 20,
                      priority := 0, output_times := [15] }],
    rand := [] }

/-- Variant with pending outputs at instants `3` and `15` (so the processed
trace has two entries, only the last at or beyond the horizon). -/
def exHorizonTwo : EngineState :=
  { current_time := 0, t_mod := 10,
    positions := [Position.create "P", Position.create "Q"],
    transitions := [{ name := "TX", input_arcs := [("Q", 1, false)],
                      output_arcs := [("P", 1)], delay := .const 20,
                      priority := 0, output_times := [3, 15] }],
    rand := [] }

/-- The spec's concrete scenario 2: positions `A` (1 token) and `B` (empty),
one immediate transition consuming from `A` and producing into `B`, no
pending outputs at start. -/
def scenario2 (T : Int) : EngineState :=
  { current_time := 0, t_mod := T,
    positions := [Position.create "A" 1, Position.create "B"],
    transitions := [{ name := "TAB", input_arcs := [("A", 1, false)],
                      output_arcs := [("B", 1)], delay := .const 0,
                      priority := 0, output_times := [] }],
    rand := [] }

/-- A transition with an output already pending at instant `5`, used to
exhibit the duplicate-timestamp collapse. -/
def exDup : Transition :=
  { name := "TD", input_arcs := [("A", 1, false)], output_arcs := [("B", 1)],
    delay := .const 0, priority := 0, output_times := [5] }

/-- The spec's concrete scenario 3: `X` (priority 2) and `Y` (priority 1)
are both locally enabled on the same marking. -/
def Xdef : Transition :=
  { name := "X", input_arcs := [("M", 1, false)], output_arcs := [("N", 1)],
    delay := .const 0, priority := 2, output_times := [] }

/-- The lower-priority contender of scenario 3. -/
def Ydef : Transition :=
  { name := "Y", input_arcs := [("M", 1, false)], output_arcs := [("O", 1)],
    delay := .const 0, priority := 1, output_times := [] }

/-- The scenario 3 state: `M` holds one token, so both `X` and `Y` pass
their local enabling checks. -/
def exPriority : EngineState :=
  { current_time := 0, t_mod := 10,
    positions := [Position.create "M" 1, Position.create "N", Position.create "O"],
    transitions := [Xdef, Ydef], rand := [] }

/-- The spec's concrete scenario 4: a guard-only arc on `G` and a consuming
arc on `C`. -/
def TGdef : Transition :=
  { name := "TG", input_arcs := [("C", 1, false), ("G", 1, true)],
    output_arcs := [("D", 1)],
    delay := .const 0, priority := 0, output_times := [] }

/-- The scenario 4 marking: `G` and `C` each hold one token. -/
def psGuard : List Position :=
  [Position.create "G" 1, Position.create "C" 1, Position.create "D"]

/-- Scenario net for the busy-time claim: `P` holds one token throughout,
and the only event lies at instant `15`, beyond the horizon `10`. -/
def exBusy : EngineState :=
  { current_time := 0, t_mod := 10,
    positions := [Position.create "P" 1, Position.create "R"],
    transitions := [{ name := "TX", input_arcs := [("R", 1, false)],
                      output_arcs := [("P", 1)], delay := .const 0,
                      priority := 0, output_times := [15] }],
    rand := [] }

/-! Basic facts about the position operations. -/

theorem update_busy_time_name (p : Position) (c : Int) :
    (p.update_busy_time c).name = p.name := by
  simp only [Position.update_busy_time]
  split <;> rfl

theorem update_busy_time_tokens (p : Position) (c : Int) :
    (p.update_busy_time c).tokens = p.tokens := by
  simp only [Position.update_busy_time]
  split <;> rfl

theorem update_busy_time_last (p : Position) (c : Int) :
    (p.update_busy_time c).last_change_time = c := rfl

theorem add_tokens_name (p : Position) (w c : Int) : (p.add_tokens w c).name = p.name := by
  simp only [Position.add_tokens, update_busy_time_name]

theorem add_tokens_tokens (p : Position) (w c : Int) :
    (p.add_tokens w c).tokens = p.tokens + w := by
  simp only [Position.add_tokens, update_busy_time_tokens]

theorem remove_tokens_name (p : Position) (w c : Int) : (p.remove_tokens w c).name = p.name := by
  simp only [Position.remove_tokens, update_busy_time_name]

theorem remove_tokens_tokens (p : Position) (w c : Int) :
    (p.remove_tokens w c).tokens = p.tokens - w := by
  simp only [Position.remove_tokens, update_busy_time_tokens]

theorem has_tokens_iff (p : Position) (w : Int) :
    p.has_tokens w = true ↔ 0 < w ∧ w ≤ p.tokens := by
  simp only [Position.has_tokens]
  split
  · next hw => simp only [decide_eq_true_eq]; omega
  · next hw => simp only [Bool.false_eq_true, false_iff]; omega

/-! Facts about the tuple returned by `fire_input`. -/

theorem fire_input_fst (t : Transition) (ps : List Position) (now : Int) (rand : List Int) :
    (t.fire_input ps now rand).1 =
      { t with output_times := t.output_times.insert (scheduledTime t now rand) } := by
  simp only [Transition.fire_input, scheduledTime]
  split <;> rfl

theorem fire_input_positions (t : Transition) (ps : List Position) (now : Int) (rand : List Int) :
    (t.fire_input ps now rand).2.1 =
      t.input_arcs.foldl (fun acc a =>
        if a.2.2 then acc
        else updatePos acc a.1 (fun p => p.remove_tokens a.2.1 now)) ps := rfl

/-! Facts about the list embedding of the position dict. -/

theorem getPos_some (ps : List Position) (n : String) (p : Position)
    (h : getPos ps n = some p) : p ∈ ps ∧ p.name = n := by
  refine ⟨List.mem_of_find?_eq_some h, ?_⟩
  have := List.find?_some h
  simpa using this

theorem getPos_of_mem_nodup (ps : List Position) (p : Position)
    (hnd : (ps.map Position.name).Nodup) (hp : p ∈ ps) : getPos ps p.name = some p := by
  induction ps with
  | nil => cases hp
  | cons q qs ih =>
    rcases List.mem_cons.mp hp with rfl | hp'
    · simp [getPos]
    · have hnotin : q.name ∉ qs.map Position.name := (List.nodup_cons.mp (by simpa using hnd)).1
      have hne : ¬ q.name = p.name := by
        intro h
        exact hnotin (h ▸ List.mem_map_of_mem Position.name hp')
      have hnd' : (qs.map Position.name).Nodup := (List.nodup_cons.mp (by simpa using hnd)).2
      simpa [getPos, List.find?_cons, hne] using ih hnd' hp'

theorem updatePos_map_name (ps : List Position) (n : String) (f : Position → Position)
    (hf : ∀ p, (f p).name = p.name) :
    (updatePos ps n f).map Position.name = ps.map Position.name := by
  simp only [updatePos, List.map_map]
  apply List.map_congr_left
  intro p _
  by_cases h : p.name = n <;> simp [h, hf]

theorem getPos_updatePos_ne (ps : List Position) (n n' : String) (f : Position → Position)
    (hf : ∀ p, (f p).name = p.name) (h : ¬ n' = n) :
    getPos (updatePos ps n f) n' = getPos ps n' := by
  induction ps with
  | nil => rfl
  | cons q qs ih =>
    have hstep : updatePos (q :: qs) n f =
        (if q.name = n then f q else q) :: updatePos qs n f := rfl
    rw [hstep]
    by_cases hq' : q.name = n'
    · have hq : ¬ q.name = n := fun hh => h (hq'.symm.trans hh)
      rw [if_neg hq]
      simp [getPos, List.find?_cons, hq']
    · have hgname : (if q.name = n then f q else q).name = q.name := by
        by_cases hq : q.name = n <;> simp [hq, hf]
      rw [getPos, getPos, List.find?_cons_of_neg, List.find?_cons_of_neg]
      · exact ih
      · simpa using hq'
      · simp [hgname, hq']

theorem nonneg_updatePos (ps : List Position) (n : String) (f : Position → Position)
    (hps : NonnegMarking ps) (hf : ∀ p ∈ ps, p.name = n → 0 ≤ (f p).tokens) :
    NonnegMarking (updatePos ps n f) := by
  intro q hq
  rcases List.mem_map.mp hq with ⟨p, hp, rfl⟩
  by_cases h : p.name = n
  · simpa [h] using hf p hp h
  · simpa [h] using hps p hp

/-! Facts about sorting and selection. -/

theorem mem_insertSorted (x y : Transition) (l : List Transition) :
    y ∈ insertSorted x l ↔ y = x ∨ y ∈ l := by
  induction l with
  | nil => simp [insertSorted]
  | cons a as ih =>
    simp only [insertSorted]
    split
    · simp [List.mem_cons]
    · simp only [List.mem_cons, ih]
      tauto

theorem mem_sortTransitions (x : Transition) (l : List Transition) :
    x ∈ sortTransitions l ↔ x ∈ l := by
  induction l with
  | nil => simp [sortTransitions]
  | cons a as ih => simp [sortTransitions, mem_insertSorted, ih]

theorem enabledChoice_spec (st : EngineState) (t : Transition)
    (h : enabledChoice st = some t) :
    t ∈ st.transitions ∧ t.is_enabled st.positions st.transitions = true := by
  unfold enabledChoice at h
  refine ⟨(mem_sortTransitions t st.transitions).mp (List.mem_of_find?_eq_some h), ?_⟩
  have h2 := List.find?_some h
  simpa using h2

/-! Facts about the event-time search. -/

theorem listMin_mem (l : List Int) (m : Int) (h : listMin l = some m) : m ∈ l := by
  induction l generalizing m with
  | nil => cases h
  | cons x xs ih =>
    simp only [listMin] at h
    cases hx : listMin xs with
    | none => rw [hx] at h; cases h; simp
    | some k =>
      rw [hx] at h
      cases h
      rcases min_choice x k with hm | hm
      · rw [hm]; simp
      · rw [hm]
        exact List.mem_cons_of_mem x (ih k hx)

theorem listMin_eq_none (l : List Int) (h : listMin l = none) : l = [] := by
  cases l with
  | nil => rfl
  | cons x xs =>
    simp only [listMin] at h
    cases hx : listMin xs <;> rw [hx] at h <;> cases h

theorem listMin_le (l : List Int) (m : Int) (h : listMin l = some m) :
    ∀ x ∈ l, m ≤ x := by
  induction l generalizing m with
  | nil => cases h
  | cons x xs ih =>
    simp only [listMin] at h
    cases hx : listMin xs with
    | none =>
      rw [hx] at h
      cases h
      intro y hy
      rw [listMin_eq_none xs hx] at hy
      rcases List.mem_cons.mp hy with rfl | hy'
      · exact le_refl y
      · cases hy'
    | some k =>
      rw [hx] at h
      have hm : m = min x k := (Option.some.inj h).symm
      subst hm
      intro y hy
      rcases List.mem_cons.mp hy with rfl | hy'
      · exact min_le_left _ _
      · exact le_trans (min_le_right x k) (ih k hx y hy')

theorem mem_foldl_append (ts : List Transition) (acc : List Int) (x : Int) :
    x ∈ ts.foldl (fun acc t => acc ++ t.output_times) acc ↔
      x ∈ acc ∨ ∃ t ∈ ts, x ∈ t.output_times := by
  induction ts generalizing acc with
  | nil => simp
  | cons t ts ih =>
    rw [List.foldl_cons, ih]
    simp [List.mem_append, or_assoc]

theorem find_next_mem (ts : List Transition) (m : Int)
    (h : find_next_event_time ts = some m) : ∃ t ∈ ts, m ∈ t.output_times := by
  have hmem := listMin_mem _ _ h
  have := (mem_foldl_append ts [] m).mp hmem
  simpa using this

theorem find_next_le (ts : List Transition) (m : Int)
    (h : find_next_event_time ts = some m) :
    ∀ t ∈ ts, ∀ x ∈ t.output_times, m ≤ x := by
  intro t ht x hx
  exact listMin_le _ _ h x ((mem_foldl_append ts [] x).mpr (Or.inr ⟨t, ht, hx⟩))

/-! Clock and horizon preservation through the phases of one iteration. -/

theorem process_outputs_clock (st : EngineState) :
    (process_outputs st).current_time = st.current_time := rfl

theorem process_outputs_horizon (st : EngineState) :
    (process_outputs st).t_mod = st.t_mod := rfl

theorem process_enabled_clock (st st' : EngineState)
    (h : process_enabled_transitions st = some st') :
    st'.current_time = st.current_time ∧ st'.t_mod = st.t_mod := by
  unfold process_enabled_transitions at h
  cases hc : enabledChoice st <;> rw [hc] at h
  · cases h
  · cases h
    exact ⟨rfl, rfl⟩

theorem fireLoop_clock (m : Nat) (st : EngineState) :
    (fireLoop m st).current_time = st.current_time ∧ (fireLoop m st).t_mod = st.t_mod := by
  induction m generalizing st with
  | zero => exact ⟨rfl, rfl⟩
  | succ n ih =>
    simp only [fireLoop]
    cases hp : process_enabled_transitions st with
    | none => exact ⟨rfl, rfl⟩
    | some st' =>
      have h := process_enabled_clock st st' hp
      exact ⟨(ih st').1.trans h.1, (ih st').2.trans h.2⟩

/-! The processed-event trace: entry conditions and the horizon bound. -/

theorem runTrace_ne_nil (m n : Nat) (st : EngineState)
    (h : runTrace m n st ≠ []) : st.current_time < st.t_mod := by
  cases n with
  | zero => simp [runTrace] at h
  | succ k =>
    by_contra hc
    simp only [runTrace] at h
    rw [if_neg hc] at h
    exact h rfl

theorem runTrace_dropLast_lt (m n : Nat) (st : EngineState) :
    ∀ x ∈ (runTrace m n st).dropLast, x < st.t_mod := by
  induction n generalizing st with
  | zero =>
    intro x hx
    simp [runTrace] at hx
  | succ k ih =>
    intro x hx
    simp only [runTrace] at hx
    split at hx
    · cases hf : find_next_event_time st.transitions with
      | none =>
        rw [hf] at hx
        have hx2 : x ∈ ([] : List Int).dropLast := hx
        simp at hx2
      | some tnext =>
        rw [hf] at hx
        have hx2 : x ∈ (tnext ::
            runTrace m k (fireLoop m (process_outputs { st with current_time := tnext }))).dropLast :=
          hx
        have hclock : (fireLoop m (process_outputs { st with current_time := tnext })).current_time
            = tnext :=
          (fireLoop_clock m _).1
        have hhor : (fireLoop m (process_outputs { st with current_time := tnext })).t_mod
            = st.t_mod :=
          (fireLoop_clock m _).2
        cases htr : runTrace m k (fireLoop m (process_outputs { st with current_time := tnext })) with
        | nil =>
          rw [htr] at hx2
          simp at hx2
        | cons y ys =>
          rw [htr] at hx2
          rcases List.mem_cons.mp (by simpa [List.dropLast] using hx2) with rfl | hx'
          · have hnn : runTrace m k (fireLoop m (process_outputs { st with current_time := x }))
                ≠ [] := by rw [htr]; simp
            have := runTrace_ne_nil m k _ hnn
            rw [hclock, hhor] at this
            exact this
          · have := ih (fireLoop m (process_outputs { st with current_time := tnext }))
              x (by rw [htr]; simpa [List.dropLast] using hx')
            rwa [hhor] at this
    · simp at hx

/-! Position names are never changed by any engine operation. -/

theorem foldl_names_invariant {α : Type} (arcs : List α) (step : List Position → α → List Position)
    (hstep : ∀ ps a, (step ps a).map Position.name = ps.map Position.name) (ps : List Position) :
    (arcs.foldl step ps).map Position.name = ps.map Position.name := by
  induction arcs generalizing ps with
  | nil => rfl
  | cons a as ih => rw [List.foldl_cons, ih, hstep]

theorem fire_output_names (t : Transition) (ps : List Position) (now : Int) :
    (t.fire_output ps now).map Position.name = ps.map Position.name := by
  apply foldl_names_invariant
  intro ps a
  exact updatePos_map_name ps a.1 _ (fun p => add_tokens_name p a.2 now)

theorem fire_input_names (t : Transition) (ps : List Position) (now : Int) (rand : List Int) :
    ((t.fire_input ps now rand).2.1).map Position.name = ps.map Position.name := by
  rw [fire_input_positions]
  apply foldl_names_invariant
  intro ps a
  by_cases hg : a.2.2
  · rw [if_pos hg]
  · rw [if_neg hg]
    exact updatePos_map_name ps a.1 _ (fun p => remove_tokens_name p a.2.1 now)

theorem process_outputs_aux_names (now : Int) (ts : List Transition) (ps : List Position) :
    ((process_outputs_aux now ts ps).2).map Position.name = ps.map Position.name := by
  induction ts generalizing ps with
  | nil => rfl
  | cons t rest ih =>
    simp only [process_outputs_aux]
    split
    · exact (ih _).trans (fire_output_names _ ps now)
    · exact ih ps

theorem process_enabled_names (st st' : EngineState)
    (h : process_enabled_transitions st = some st') :
    st'.positions.map Position.name = st.positions.map Position.name := by
  unfold process_enabled_transitions at h
  cases hc : enabledChoice st <;> rw [hc] at h
  · cases h
  · cases h
    exact fire_input_names _ st.positions st.current_time st.rand

theorem fireLoop_names (m : Nat) (st : EngineState) :
    (fireLoop m st).positions.map Position.name = st.positions.map Position.name := by
  induction m generalizing st with
  | zero => rfl
  | succ n ih =>
    simp only [fireLoop]
    cases hp : process_enabled_transitions st with
    | none => rfl
    | some st' => exact (ih st').trans (process_enabled_names st st' hp)

theorem runState_names (m n : Nat) (st : EngineState) :
    (runState m n st).positions.map Position.name = st.positions.map Position.name := by
  induction n generalizing st with
  | zero => rfl
  | succ k ih =>
    simp only [runState]
    split
    · cases hf : find_next_event_time st.transitions with
      | none => rfl
      | some tnext =>
        have h1 := ih (fireLoop m (process_outputs { st with current_time := tnext }))
        have h2 := fireLoop_names m (process_outputs { st with current_time := tnext })
        have h3 := process_outputs_aux_names tnext st.transitions st.positions
        exact h1.trans (h2.trans h3)
    · rfl

/-! Transition arcs are never changed by any engine operation; pending
output times only shrink (output phase) or gain the scheduled instant
(firing phase). -/

theorem mem_updateTrans (ts : List Transition) (nm : String) (t' u : Transition)
    (hu : u ∈ updateTrans ts nm t') : u = t' ∨ u ∈ ts := by
  rcases List.mem_map.mp hu with ⟨v, hv, rfl⟩
  by_cases h : v.name = nm
  · left; rw [if_pos h]
  · right; rw [if_neg h]; exact hv

theorem process_outputs_aux_trans (now : Int) (ts : List Transition) (ps : List Position) :
    ∀ u ∈ (process_outputs_aux now ts ps).1, ∃ t ∈ ts,
      u.input_arcs = t.input_arcs ∧ u.output_arcs = t.output_arcs ∧
      u.output_times ⊆ t.output_times := by
  induction ts generalizing ps with
  | nil => intro u hu; cases hu
  | cons t rest ih =>
    intro u hu
    simp only [process_outputs_aux] at hu
    split at hu
    · rcases List.mem_cons.mp hu with rfl | hu'
      · exact ⟨t, List.mem_cons_self t rest, rfl, rfl, List.erase_subset _ _⟩
      · rcases ih _ u hu' with ⟨v, hv, h1, h2, h3⟩
        exact ⟨v, List.mem_cons_of_mem t hv, h1, h2, h3⟩
    · rcases List.mem_cons.mp hu with rfl | hu'
      · exact ⟨u, List.mem_cons_self u rest, rfl, rfl, fun x hx => hx⟩
      · rcases ih _ u hu' with ⟨v, hv, h1, h2, h3⟩
        exact ⟨v, List.mem_cons_of_mem t hv, h1, h2, h3⟩

/-! Preservation of non-negative markings (claim: conservation / tokens
never go negative). -/

theorem hasTokensAt_congr (ps1 ps2 : List Position) (n : String) (w : Int)
    (h : getPos ps1 n = getPos ps2 n) : hasTokensAt ps1 n w = hasTokensAt ps2 n w := by
  unfold hasTokensAt
  rw [h]

theorem foldl_add_nonneg (arcs : List (String × Int)) (now : Int) (ps : List Position)
    (hw : ∀ a ∈ arcs, 0 ≤ a.2) (hps : NonnegMarking ps) :
    NonnegMarking (arcs.foldl
      (fun acc a => updatePos acc a.1 (fun p => p.add_tokens a.2 now)) ps) := by
  induction arcs generalizing ps with
  | nil => exact hps
  | cons a as ih =>
    rw [List.foldl_cons]
    apply ih _ (fun b hb => hw b (List.mem_cons_of_mem a hb))
    apply nonneg_updatePos _ _ _ hps
    intro p hp _
    rw [add_tokens_tokens]
    have h1 := hps p hp
    have h2 := hw a (List.mem_cons_self a as)
    omega

theorem fire_output_nonneg (t : Transition) (ps : List Position) (now : Int)
    (hw : ∀ a ∈ t.output_arcs, 0 ≤ a.2) (hps : NonnegMarking ps) :
    NonnegMarking (t.fire_output ps now) :=
  foldl_add_nonneg t.output_arcs now ps hw hps

theorem foldl_remove_nonneg (arcs : List (String × Int × Bool)) (now : Int) (ps : List Position)
    (hnd : (arcs.map Prod.fst).Nodup) (hpnd : (ps.map Position.name).Nodup)
    (hchk : ∀ a ∈ arcs, hasTokensAt ps a.1 a.2.1 = true) (hps : NonnegMarking ps) :
    NonnegMarking (arcs.foldl (fun acc a =>
      if a.2.2 then acc
      else updatePos acc a.1 (fun p => p.remove_tokens a.2.1 now)) ps) := by
  induction arcs generalizing ps with
  | nil => exact hps
  | cons a as ih =>
    have hnd' : (a.1 :: as.map Prod.fst).Nodup := by rwa [List.map_cons] at hnd
    have hndtail : (as.map Prod.fst).Nodup := (List.nodup_cons.mp hnd').2
    rw [List.foldl_cons]
    by_cases hg : a.2.2
    · rw [if_pos hg]
      exact ih _ hndtail hpnd (fun b hb => hchk b (List.mem_cons_of_mem a hb)) hps
    · rw [if_neg hg]
      have hnames : (updatePos ps a.1 (fun p => p.remove_tokens a.2.1 now)).map Position.name
          = ps.map Position.name :=
        updatePos_map_name ps a.1 _ (fun p => remove_tokens_name p a.2.1 now)
      apply ih _ hndtail (by rw [hnames]; exact hpnd)
      · intro b hb
        have hbne : ¬ b.1 = a.1 := by
          intro hbe
          exact (List.nodup_cons.mp hnd').1 (hbe ▸ List.mem_map_of_mem Prod.fst hb)
        rw [hasTokensAt_congr _ ps _ _
          (getPos_updatePos_ne ps a.1 b.1 _ (fun p => remove_tokens_name p a.2.1 now) hbne)]
        exact hchk b (List.mem_cons_of_mem a hb)
      · apply nonneg_updatePos _ _ _ hps
        intro p hp hname
        rw [remove_tokens_tokens]
        have hchka := hchk a (List.mem_cons_self a as)
        unfold hasTokensAt at hchka
        have hget : getPos ps a.1 = some p := by
          rw [← hname]
          exact getPos_of_mem_nodup ps p hpnd hp
        rw [hget] at hchka
        have := (has_tokens_iff p a.2.1).mp hchka
        omega

theorem check_input_all (t : Transition) (ps : List Position)
    (hchk : t.check_input_conditions ps = true) :
    ∀ a ∈ t.input_arcs, hasTokensAt ps a.1 a.2.1 = true := by
  unfold Transition.check_input_conditions at hchk
  intro a ha
  exact List.all_eq_true.mp hchk a ha

theorem fire_input_nonneg (t : Transition) (ps : List Position) (now : Int) (rand : List Int)
    (hnd : (t.input_arcs.map Prod.fst).Nodup) (hpnd : (ps.map Position.name).Nodup)
    (hchk : t.check_input_conditions ps = true) (hps : NonnegMarking ps) :
    NonnegMarking (t.fire_input ps now rand).2.1 := by
  rw [fire_input_positions]
  exact foldl_remove_nonneg t.input_arcs now ps hnd hpnd (check_input_all t ps hchk) hps

theorem process_outputs_aux_nonneg (now : Int) (ts : List Transition) (ps : List Position)
    (hw : ∀ t ∈ ts, ∀ a ∈ t.output_arcs, 0 ≤ a.2) (hps : NonnegMarking ps) :
    NonnegMarking (process_outputs_aux now ts ps).2 := by
  induction ts generalizing ps with
  | nil => exact hps
  | cons t rest ih =>
    simp only [process_outputs_aux]
    split
    · apply ih _ (fun u hu => hw u (List.mem_cons_of_mem t hu))
      exact fire_output_nonneg _ ps now (hw t (List.mem_cons_self t rest)) hps
    · exact ih _ (fun u hu => hw u (List.mem_cons_of_mem t hu)) hps

theorem is_enabled_check (t : Transition) (ps : List Position) (ts : List Transition)
    (h : t.is_enabled ps ts = true) : t.check_input_conditions ps = true := by
  unfold Transition.is_enabled at h
  simp only [Bool.and_eq_true] at h
  exact h.1

theorem process_enabled_preserves (st st' : EngineState)
    (h : process_enabled_transitions st = some st')
    (hwf : NetWellFormed st) (hps : NonnegMarking st.positions) :
    NetWellFormed st' ∧ NonnegMarking st'.positions := by
  unfold process_enabled_transitions at h
  cases hc : enabledChoice st <;> rw [hc] at h
  · cases h
  · next t =>
    cases h
    obtain ⟨hmem, hen⟩ := enabledChoice_spec st t hc
    have hchk := is_enabled_check t st.positions st.transitions hen
    have htwf := hwf.2 t hmem
    have hnames := fire_input_names t st.positions st.current_time st.rand
    constructor
    · constructor
      · rw [hnames]
        exact hwf.1
      · intro u hu
        rcases mem_updateTrans st.transitions t.name _ u hu with rfl | hu'
        · rw [fire_input_fst]
          exact htwf
        · exact hwf.2 u hu'
    · exact fire_input_nonneg t st.positions st.current_time st.rand htwf.1 hwf.1 hchk hps

theorem fireLoop_preserves (m : Nat) (st : EngineState)
    (hwf : NetWellFormed st) (hps : NonnegMarking st.positions) :
    NetWellFormed (fireLoop m st) ∧ NonnegMarking (fireLoop m st).positions := by
  induction m generalizing st with
  | zero => exact ⟨hwf, hps⟩
  | succ n ih =>
    simp only [fireLoop]
    cases hp : process_enabled_transitions st with
    | none => exact ⟨hwf, hps⟩
    | some st' =>
      obtain ⟨hwf', hps'⟩ := process_enabled_preserves st st' hp hwf hps
      exact ih st' hwf' hps'

theorem process_outputs_preserves (st : EngineState)
    (hwf : NetWellFormed st) (hps : NonnegMarking st.positions) :
    NetWellFormed (process_outputs st) ∧ NonnegMarking (process_outputs st).positions := by
  refine ⟨⟨?_, ?_⟩, ?_⟩
  · show (((process_outputs_aux st.current_time st.transitions st.positions).2).map
      Position.name).Nodup
    rw [process_outputs_aux_names]
    exact hwf.1
  · intro u hu
    rcases process_outputs_aux_trans st.current_time st.transitions st.positions u hu with
      ⟨t, ht, h1, h2, _⟩
    rw [h1, h2]
    exact hwf.2 t ht
  · exact process_outputs_aux_nonneg st.current_time st.transitions st.positions
      (fun t ht => (hwf.2 t ht).2) hps

theorem runState_preserves (m n : Nat) (st : EngineState)
    (hwf : NetWellFormed st) (hps : NonnegMarking st.positions) :
    NetWellFormed (runState m n st) ∧ NonnegMarking (runState m n st).positions := by
  induction n generalizing st with
  | zero => exact ⟨hwf, hps⟩
  | succ k ih =>
    simp only [runState]
    split
    · cases hf : find_next_event_time st.transitions with
      | none => exact ⟨hwf, hps⟩
      | some tnext =>
        have hadv : NetWellFormed { st with current_time := tnext } := hwf
        obtain ⟨hwf1, hps1⟩ :=
          process_outputs_preserves { st with current_time := tnext } hadv hps
        obtain ⟨hwf2, hps2⟩ :=
          fireLoop_preserves m (process_outputs { st with current_time := tnext }) hwf1 hps1
        exact ih _ hwf2 hps2
    · exact ⟨hwf, hps⟩

/-! Preservation of the clock invariant `TimeInv`, and clock monotonicity. -/

theorem update_busy_time_busy (p : Position) (c : Int) :
    (p.update_busy_time c).total_busy_time =
      if p.tokens > 0 then p.total_busy_time + (c - p.last_change_time)
      else p.total_busy_time := by
  unfold Position.update_busy_time
  split <;> rfl

theorem pos_inv_update_busy (p : Position) (now c : Int)
    (h : PosInvAt now p) (hc : now ≤ c) : PosInvAt c (p.update_busy_time c) := by
  obtain ⟨h0, h1, h2⟩ := h
  refine ⟨?_, ?_, ?_⟩
  · rw [update_busy_time_busy]
    split <;> omega
  · rw [update_busy_time_busy, update_busy_time_last]
    split <;> omega
  · rw [update_busy_time_last]

theorem add_tokens_busy (p : Position) (w c : Int) :
    (p.add_tokens w c).total_busy_time = (p.update_busy_time c).total_busy_time := rfl

theorem add_tokens_last (p : Position) (w c : Int) :
    (p.add_tokens w c).last_change_time = (p.update_busy_time c).last_change_time := rfl

theorem remove_tokens_busy (p : Position) (w c : Int) :
    (p.remove_tokens w c).total_busy_time = (p.update_busy_time c).total_busy_time := rfl

theorem remove_tokens_last (p : Position) (w c : Int) :
    (p.remove_tokens w c).last_change_time = (p.update_busy_time c).last_change_time := rfl

theorem pos_inv_add (p : Position) (w now : Int) (h : PosInvAt now p) :
    PosInvAt now (p.add_tokens w now) := by
  have := pos_inv_update_busy p now now h (le_refl now)
  unfold PosInvAt at this ⊢
  rw [add_tokens_busy, add_tokens_last]
  exact this

theorem pos_inv_remove (p : Position) (w now : Int) (h : PosInvAt now p) :
    PosInvAt now (p.remove_tokens w now) := by
  have := pos_inv_update_busy p now now h (le_refl now)
  unfold PosInvAt at this ⊢
  rw [remove_tokens_busy, remove_tokens_last]
  exact this

theorem forall_updatePos {P : Position → Prop} (ps : List Position) (n : String)
    (f : Position → Position) (hps : ∀ p ∈ ps, P p) (hf : ∀ p ∈ ps, P p → P (f p)) :
    ∀ q ∈ updatePos ps n f, P q := by
  intro q hq
  rcases List.mem_map.mp hq with ⟨p, hp, rfl⟩
  by_cases h : p.name = n
  · rw [if_pos h]
    exact hf p hp (hps p hp)
  · rw [if_neg h]
    exact hps p hp

theorem fire_output_posInv (t : Transition) (ps : List Position) (now : Int)
    (hps : ∀ p ∈ ps, PosInvAt now p) : ∀ q ∈ t.fire_output ps now, PosInvAt now q := by
  unfold Transition.fire_output
  induction t.output_arcs generalizing ps with
  | nil => exact hps
  | cons a as ih =>
    rw [List.foldl_cons]
    apply ih
    apply forall_updatePos _ _ _ hps
    intro p _ hP
    exact pos_inv_add p a.2 now hP

theorem fire_input_posInv (t : Transition) (ps : List Position) (now : Int) (rand : List Int)
    (hps : ∀ p ∈ ps, PosInvAt now p) :
    ∀ q ∈ (t.fire_input ps now rand).2.1, PosInvAt now q := by
  rw [fire_input_positions]
  induction t.input_arcs generalizing ps with
  | nil => exact hps
  | cons a as ih =>
    rw [List.foldl_cons]
    by_cases hg : a.2.2
    · rw [if_pos hg]
      exact ih _ hps
    · rw [if_neg hg]
      apply ih
      apply forall_updatePos _ _ _ hps
      intro p _ hP
      exact pos_inv_remove p a.2.1 now hP

theorem scheduledTime_ge (t : Transition) (now : Int) (rand : List Int) :
    now ≤ scheduledTime t now rand := by
  unfold scheduledTime
  split <;> omega

theorem process_enabled_timeInv (st st' : EngineState)
    (h : process_enabled_transitions st = some st') (hinv : TimeInv st) : TimeInv st' := by
  unfold process_enabled_transitions at h
  cases hc : enabledChoice st <;> rw [hc] at h
  · cases h
  · next t =>
    cases h
    obtain ⟨hmem, _⟩ := enabledChoice_spec st t hc
    constructor
    · intro p hp
      exact fire_input_posInv t st.positions st.current_time st.rand (hinv.1) p hp
    · intro u hu x hx
      rcases mem_updateTrans st.transitions t.name _ u hu with rfl | hu'
      · rw [fire_input_fst] at hx
        rcases List.mem_insert_iff.mp hx with rfl | hx'
        · exact scheduledTime_ge t st.current_time st.rand
        · exact hinv.2 t hmem x hx'
      · exact hinv.2 u hu' x hx

theorem fireLoop_timeInv (m : Nat) (st : EngineState) (hinv : TimeInv st) :
    TimeInv (fireLoop m st) := by
  induction m generalizing st with
  | zero => exact hinv
  | succ n ih =>
    simp only [fireLoop]
    cases hp : process_enabled_transitions st with
    | none => exact hinv
    | some st' => exact ih st' (process_enabled_timeInv st st' hp hinv)

theorem process_outputs_aux_posInv (now : Int) (ts : List Transition) (ps : List Position)
    (hps : ∀ p ∈ ps, PosInvAt now p) :
    ∀ p ∈ (process_outputs_aux now ts ps).2, PosInvAt now p := by
  induction ts generalizing ps with
  | nil => exact hps
  | cons t rest ih =>
    simp only [process_outputs_aux]
    split
    · exact ih _ (fire_output_posInv _ ps now hps)
    · exact ih _ hps

theorem process_outputs_timeInv (st : EngineState) (hinv : TimeInv st) :
    TimeInv (process_outputs st) := by
  constructor
  · intro p hp
    exact process_outputs_aux_posInv st.current_time st.transitions st.positions hinv.1 p hp
  · intro u hu x hx
    rcases process_outputs_aux_trans st.current_time st.transitions st.positions u hu with
      ⟨t, ht, _, _, hsub⟩
    exact hinv.2 t ht x (hsub hx)

theorem advance_timeInv (st : EngineState) (tnext : Int)
    (hf : find_next_event_time st.transitions = some tnext) (hinv : TimeInv st) :
    TimeInv { st with current_time := tnext } ∧ st.current_time ≤ tnext := by
  have hge : st.current_time ≤ tnext := by
    rcases find_next_mem _ _ hf with ⟨t, ht, hx⟩
    exact hinv.2 t ht tnext hx
  refine ⟨⟨?_, ?_⟩, hge⟩
  · intro p hp
    obtain ⟨h0, h1, h2⟩ := hinv.1 p hp
    exact ⟨h0, h1, le_trans h2 hge⟩
  · intro t ht x hx
    exact find_next_le _ _ hf t ht x hx

theorem runState_timeInv (m n : Nat) (st : EngineState) (hinv : TimeInv st) :
    TimeInv (runState m n st) ∧ st.current_time ≤ (runState m n st).current_time := by
  induction n generalizing st with
  | zero => exact ⟨hinv, le_refl _⟩
  | succ k ih =>
    simp only [runState]
    split
    · cases hf : find_next_event_time st.transitions with
      | none => exact ⟨hinv, le_refl _⟩
      | some tnext =>
        obtain ⟨hadv, hge⟩ := advance_timeInv st tnext hf hinv
        have h1 := process_outputs_timeInv _ hadv
        have h2 := fireLoop_timeInv m _ h1
        obtain ⟨hfin, hmono⟩ := ih _ h2
        refine ⟨hfin, le_trans hge (le_trans ?_ hmono)⟩
        have hclock := (fireLoop_clock m (process_outputs { st with current_time := tnext })).1
        rw [hclock, process_outputs_clock]
    · exact ⟨hinv, le_refl _⟩

theorem settle_posInv (ps : List Position) (c : Int)
    (hps : ∀ p ∈ ps, PosInvAt c p) :
    ∀ p ∈ settle_positions ps c, 0 ≤ p.total_busy_time ∧ p.total_busy_time ≤ c := by
  intro q hq
  rcases List.mem_map.mp hq with ⟨p, hp, rfl⟩
  have h := pos_inv_update_busy p c c (hps p hp) (le_refl c)
  exact ⟨h.1, le_trans h.2.1 h.2.2⟩

/-! The input phase as a pointwise map over the marking (used for the
guard-only frame property). -/

theorem foldl_remove_as_map (arcs : List (String × Int × Bool)) (now : Int) (ps : List Position) :
    arcs.foldl (fun acc a =>
      if a.2.2 then acc else updatePos acc a.1 (fun p => p.remove_tokens a.2.1 now)) ps =
    ps.map (fun p => arcs.foldl (fun q a =>
      if a.2.2 then q else if q.name = a.1 then q.remove_tokens a.2.1 now else q) p) := by
  induction arcs generalizing ps with
  | nil => simp
  | cons a as ih =>
    rw [List.foldl_cons, ih]
    by_cases hg : a.2.2
    · simp [hg, List.foldl_cons]
    · simp only [hg, List.foldl_cons, if_false, Bool.false_eq_true, updatePos, List.map_map]
      rfl

theorem foldl_pointwise_id (arcs : List (String × Int × Bool)) (now : Int) (p : Position)
    (hguard : ∀ a ∈ arcs, ¬ a.1 = p.name ∨ a.2.2 = true) :
    arcs.foldl (fun q a =>
      if a.2.2 then q else if q.name = a.1 then q.remove_tokens a.2.1 now else q) p = p := by
  induction arcs with
  | nil => rfl
  | cons a as ih =>
    have htail := fun b hb => hguard b (List.mem_cons_of_mem a hb)
    rw [List.foldl_cons]
    by_cases hg2 : a.2.2
    · rw [if_pos hg2]
      exact ih htail
    · rw [if_neg hg2]
      rcases hguard a (List.mem_cons_self a as) with hne | hg
      · rw [if_neg (fun hh => hne hh.symm)]
        exact ih htail
      · exact absurd hg hg2

/-! Lookups after a run of the shipped net. -/

theorem settle_positions_names (ps : List Position) (c : Int) :
    (settle_positions ps c).map Position.name = ps.map Position.name := by
  unfold settle_positions
  rw [List.map_map]
  apply List.map_congr_left
  intro p _
  exact update_busy_time_name p c

theorem getPos_isSome_of_name_mem (ps : List Position) (n : String)
    (h : n ∈ ps.map Position.name) : ∃ p, getPos ps n = some p := by
  induction ps with
  | nil => simp at h
  | cons q qs ih =>
    by_cases hq : q.name = n
    · exact ⟨q, by simp [getPos, List.find?_cons, hq]⟩
    · have hmem : n ∈ qs.map Position.name := by
        rw [List.map_cons] at h
        rcases List.mem_cons.mp h with heq | hmem
        · exact absurd heq.symm hq
        · exact hmem
      rcases ih hmem with ⟨p, hp⟩
      refine ⟨p, ?_⟩
      rw [getPos, List.find?_cons_of_neg _ (by simp [hq])]
      exact hp

/-! The claim theorems. -/

/-- C1, counterexample: on `exHorizon` (single pending output at `15`,
horizon `10`) the earliest pending time `15` is at or beyond the horizon,
yet the engine does not stop there: it advances the clock to `15` and
applies the output (`P` gains a token, mutated at logical time `15 ≥ 10`),
contradicting the claim that no output is applied at any logical time at or
beyond the horizon. -/
theorem run_processes_event_beyond_horizon :
    find_next_event_time exHorizon.transitions = some 15 ∧
    exHorizon.t_mod = 10 ∧
    (runState 4 4 exHorizon).current_time = 15 ∧
    (getPos (runState 4 4 exHorizon).positions "P").map Position.tokens = some 1 ∧
    (getPos (runState 4 4 exHorizon).positions "P").map Position.last_change_time = some 15 ∧
    ¬ runState 4 4 exHorizon = exHorizon := by
  decide

/-- C1, amended: the loop-entry check compares the horizon against the
previously processed event time, so an event time at or beyond the horizon
is still processed once (outputs applied and transitions fired there) and
the loop stops at the next check; formally, every processed event time
except possibly the last is strictly below the horizon, and the engine
stops as soon as no pending output exists. -/
theorem horizon_trace_below (m n : Nat) (st : EngineState) :
    ∀ x ∈ (runTrace m n st).dropLast, x < st.t_mod :=
  runTrace_dropLast_lt m n st

/-- Witness for the amended C1 theorem on a run processing events at `3`
and then `15` against horizon `10`. -/
theorem horizon_trace_below_witness :
    (3 : Int) ∈ (runTrace 4 4 exHorizonTwo).dropLast ∧ (3 : Int) < exHorizonTwo.t_mod :=
  ⟨by decide, horizon_trace_below 4 4 exHorizonTwo 3 (by decide)⟩

/-- C2, counterexample: in the spec's scenario 2 net (no pending outputs at
start) with horizon `T = 1 > 0`, the run ends with `A.tokens = 1` and
`B.tokens = 0` and an empty processed-event trace — the immediate
transition never fires, contradicting the claimed final marking
`A = 0, B = 1` with one firing at time 0. -/
theorem scenario2_run_fires_nothing :
    (getPos (runState 5 5 (scenario2 1)).positions "A").map Position.tokens = some 1 ∧
    (getPos (runState 5 5 (scenario2 1)).positions "B").map Position.tokens = some 0 ∧
    runTrace 5 5 (scenario2 1) = [] ∧ (0 : Int) < 1 ∧
    ¬ ((getPos (runState 5 5 (scenario2 1)).positions "A").map Position.tokens = some 0 ∧
       (getPos (runState 5 5 (scenario2 1)).positions "B").map Position.tokens = some 1) := by
  decide

/-- C2, amended: with no pending outputs at start the event search returns
`+infinity` in the very first iteration and `run` exits before any firing
phase, for every horizon `T > 0`: the state is returned unchanged
(`A.tokens = 1`, `B.tokens = 0`, zero firings). -/
theorem scenario2_idle_run (m n : Nat) (T : Int) (hT : 0 < T) :
    runState m n (scenario2 T) = scenario2 T ∧ runTrace m n (scenario2 T) = [] := by
  have hf : find_next_event_time (scenario2 T).transitions = none := rfl
  cases n with
  | zero => exact ⟨rfl, rfl⟩
  | succ k =>
    constructor
    · simp only [runState, hf]
      split <;> rfl
    · simp only [runTrace, hf]
      split <;> rfl

/-- Witness for the amended C2 theorem at `T = 1`. -/
theorem scenario2_idle_run_witness :
    (0 : Int) < 1 ∧ runState 3 3 (scenario2 1) = scenario2 1 :=
  ⟨by decide, (scenario2_idle_run 3 3 1 (by decide)).1⟩

/-- C3: in a well-formed net (dict-unique position names and arc keys,
non-negative output weights) every marking reached by the engine loop keeps
every token count non-negative; moreover `fire_input` preserves
non-negativity whenever the enabling check has succeeded on the current
marking, which is exactly how the engine invokes it. -/
theorem tokens_nonneg_reachable (m n : Nat) (st : EngineState)
    (hwf : NetWellFormed st) (hps : NonnegMarking st.positions) :
    NonnegMarking (runState m n st).positions ∧
    (∀ (t : Transition) (ps : List Position) (now : Int) (rand : List Int),
      (t.input_arcs.map Prod.fst).Nodup → (ps.map Position.name).Nodup →
      t.check_input_conditions ps = true → NonnegMarking ps →
      NonnegMarking (t.fire_input ps now rand).2.1) :=
  ⟨(runState_preserves m n st hwf hps).2,
   fun t ps now rand h1 h2 h3 h4 => fire_input_nonneg t ps now rand h1 h2 h3 h4⟩

/-- Witness for C3 on the shipped net. -/
theorem tokens_nonneg_reachable_witness :
    NetWellFormed (initModel 1000 [5, 100]) ∧
    NonnegMarking (initModel 1000 [5, 100]).positions ∧
    NonnegMarking (runState 5 5 (initModel 1000 [5, 100])).positions :=
  ⟨by decide, by decide,
   (tokens_nonneg_reachable 5 5 (initModel 1000 [5, 100]) (by decide) (by decide)).1⟩

/-- C4, counterexample: `exDup` already has an output pending at instant
`5`; firing its input phase at time `5` (delay 0) schedules another output
at the same instant, but the pending set still holds exactly one entry
`[5]` — the Python `set.add` collapsed the duplicate, so only one
`fire_output` can ever result, not two. -/
theorem duplicate_output_time_collapsed :
    exDup.output_times = [5] ∧
    (exDup.fire_input [Position.create "A" 1, Position.create "B"] 5 []).1.output_times
      = [5] ∧
    ¬ ((exDup.fire_input [Position.create "A" 1, Position.create "B"] 5 []).1.output_times.length
      = 2) := by
  decide

/-- C4, amended: pending output times behave as a mathematical set, not a
multiset: when the output instant computed by `fire_input` is already
pending on that transition, the insertion is a no-op and the two coincident
outputs collapse into a single pending entry (hence a single
`fire_output`). -/
theorem output_times_set_semantics (t : Transition) (ps : List Position) (now : Int)
    (rand : List Int) (h : scheduledTime t now rand ∈ t.output_times) :
    (t.fire_input ps now rand).1.output_times = t.output_times := by
  rw [fire_input_fst]
  exact List.insert_of_mem h

/-- Witness for the amended C4 theorem. -/
theorem output_times_set_semantics_witness :
    scheduledTime exDup 5 [] ∈ exDup.output_times ∧
    (exDup.fire_input [Position.create "A" 1, Position.create "B"] 5 []).1.output_times
      = exDup.output_times :=
  ⟨by decide, output_times_set_semantics exDup [Position.create "A" 1, Position.create "B"]
    5 [] (by decide)⟩

/-- C5: if `A` and `B` are simultaneously locally enabled with
`priority A > priority B`, then `B` is not enabled (priority preemption in
`is_enabled`) and the engine's firing selection can never pick `B`. -/
theorem priority_preemption (st : EngineState) (A B : Transition)
    (hA : A ∈ st.transitions) (hname : ¬ A.name = B.name)
    (hpri : B.priority < A.priority)
    (hloc : A.check_input_conditions st.positions = true) :
    B.is_enabled st.positions st.transitions = false ∧
    ¬ enabledChoice st = some B := by
  have hB : B.is_enabled st.positions st.transitions = false := by
    cases hE : B.is_enabled st.positions st.transitions with
    | false => rfl
    | true =>
      exfalso
      unfold Transition.is_enabled at hE
      simp only [Bool.and_eq_true] at hE
      have hAll := List.all_eq_true.mp hE.2 A hA
      rw [decide_eq_false hname, decide_eq_true hpri, hloc] at hAll
      simp at hAll
  refine ⟨hB, ?_⟩
  intro hc
  have := (enabledChoice_spec st B hc).2
  rw [hB] at this
  cases this

/-- Witness for C5 on the spec's scenario 3 (`X` priority 2, `Y` priority
1, both locally enabled): `Y` is not enabled and the engine selects `X`. -/
theorem priority_preemption_witness :
    Xdef ∈ exPriority.transitions ∧ ¬ Xdef.name = Ydef.name ∧
    Ydef.priority < Xdef.priority ∧
    Xdef.check_input_conditions exPriority.positions = true ∧
    (Ydef.is_enabled exPriority.positions exPriority.transitions = false ∧
     ¬ enabledChoice exPriority = some Ydef) ∧
    enabledChoice exPriority = some Xdef :=
  ⟨by decide, by decide, by decide, by decide,
   priority_preemption exPriority Xdef Ydef (by decide) (by decide) (by decide) (by decide),
   by decide⟩

/-- C6: evaluation of the code at the failing input.  With the default
parameters and an initial arrival draw of `-3` (a possible normal sample),
`Model.__init__` seeds `T1` with an output at time `-3` — the seeding
helpers add the raw sample to the clock without the `max(0, ...)` clamp the
transition delays use — and the first loop iteration drags the clock from
`0` down to `-3 < 0`: logical time is not monotone from 0 and the seeded
event violates the claimed clamping. -/
theorem seed_time_unclamped :
    find_next_event_time (initModel 10 [-3]).transitions = some (-3) ∧
    (initModel 10 [-3]).current_time = 0 ∧
    (runState 10 1 (initModel 10 [-3])).current_time = -3 ∧
    (runState 10 1 (initModel 10 [-3])).current_time < 0 := by
  decide

/-- C7, counterexample: on `exBusy` (position `P` busy from time 0, only
event at `15`, horizon `10`) the run ends with clock `15`; the statistics
settle positions to that final clock — not to the horizon — and `P` ends
with `total_busy_time = 15 > 10 = T`, refuting `total_busy_time ≤ T`. -/
theorem busy_time_exceeds_horizon :
    exBusy.t_mod = 10 ∧
    (runState 4 4 exBusy).current_time = 15 ∧
    (getPos (settle_positions (runState 4 4 exBusy).positions
      (runState 4 4 exBusy).current_time) "P").map Position.total_busy_time = some 15 ∧
    ¬ (∀ p ∈ settle_positions (runState 4 4 exBusy).positions
        (runState 4 4 exBusy).current_time, p.total_busy_time ≤ exBusy.t_mod) := by
  decide

/-- C7, amended: the end-of-run settling is performed to the final clock
value (not to the horizon `T`), and for every position the settled busy
time satisfies `0 ≤ total_busy_time ≤ final clock`; since the final clock
can exceed `T` (one event beyond the horizon is processed), the bound by
`T` itself fails. -/
theorem busy_time_bounded_by_final_clock (m n : Nat) (st : EngineState) (hinv : TimeInv st) :
    ∀ p ∈ settle_positions (runState m n st).positions (runState m n st).current_time,
      0 ≤ p.total_busy_time ∧ p.total_busy_time ≤ (runState m n st).current_time := by
  intro p hp
  exact settle_posInv _ _ ((runState_timeInv m n st hinv).1).1 p hp

/-- Witness for the amended C7 theorem on the shipped net. -/
theorem busy_time_bounded_witness :
    TimeInv (initModel 1000 [5, 100]) ∧
    ∀ p ∈ settle_positions (runState 3 3 (initModel 1000 [5, 100])).positions
        (runState 3 3 (initModel 1000 [5, 100])).current_time,
      0 ≤ p.total_busy_time ∧
      p.total_busy_time ≤ (runState 3 3 (initModel 1000 [5, 100])).current_time :=
  ⟨by decide, busy_time_bounded_by_final_clock 3 3 (initModel 1000 [5, 100]) (by decide)⟩

/-- C8: `has_tokens` is true exactly when the weight is positive and
covered by the current tokens — a weight of `0` always yields false — and
consequently the shipped transition `T6`, whose `P8` arc carries weight
`0`, is never enabled on any marking (reachable or not) against any
transition collection. -/
theorem has_tokens_zero_weight_and_T6_disabled :
    (∀ (p : Position) (w : Int),
      p.has_tokens w = (decide (0 < w) && decide (w ≤ p.tokens))) ∧
    ∀ (ps : List Position) (ts : List Transition),
      T6def.is_enabled ps ts = false := by
  constructor
  · intro p w
    unfold Position.has_tokens
    by_cases h : w > 0
    · rw [if_pos h, decide_eq_true h]
      simp [ge_iff_le]
    · rw [if_neg h, decide_eq_false h]
      simp
  · intro ps ts
    have hchk : T6def.check_input_conditions ps = false := by
      unfold Transition.check_input_conditions T6def
      have h8 : hasTokensAt ps "P8" 0 = false := by
        unfold hasTokensAt
        cases getPos ps "P8" with
        | none => rfl
        | some p => rfl
      simp [List.all_cons, h8]
    unfold Transition.is_enabled
    rw [hchk]
    rfl

/-- C9: when a transition fires its input phase, any position all of whose
referencing input arcs are guard-only (`is_info = true`) is left entirely
unchanged — its list entry after `fire_input` is the original position
record, token count included; only non-guard arcs consume. -/
theorem guard_only_arc_frame (t : Transition) (ps : List Position) (now : Int)
    (rand : List Int) (i : Nat) (h : i < ps.length)
    (hguard : t.input_arcs.all
      (fun a => !(decide (a.1 = (ps.get ⟨i, h⟩).name)) || a.2.2) = true) :
    ((t.fire_input ps now rand).2.1).get? i = some (ps.get ⟨i, h⟩) := by
  have hg : ∀ a ∈ t.input_arcs, ¬ a.1 = (ps.get ⟨i, h⟩).name ∨ a.2.2 = true := by
    intro a ha
    have := List.all_eq_true.mp hguard a ha
    simp only [Bool.or_eq_true, Bool.not_eq_eq_eq_not, Bool.not_true,
      decide_eq_false_iff_not] at this
    rcases this with h1 | h2
    · left; simpa using h1
    · right; exact h2
  rw [fire_input_positions, foldl_remove_as_map, List.get?_map,
    List.get?_eq_get h, Option.map_some']
  rw [foldl_pointwise_id t.input_arcs now (ps.get ⟨i, h⟩) hg]

/-- Witness for C9 on the spec's scenario 4: firing the transition with a
guard-only arc on `G` (index 0) and a consuming arc on `C` leaves the `G`
entry untouched. -/
theorem guard_only_arc_frame_witness :
    TGdef.input_arcs.all
      (fun a => !(decide (a.1 = (psGuard.get ⟨0, by decide⟩).name)) || a.2.2) = true ∧
    ((TGdef.fire_input psGuard 0 []).2.1).get? 0 = some (psGuard.get ⟨0, by decide⟩) :=
  ⟨by decide, guard_only_arc_frame TGdef psGuard 0 [] 0 (by decide) (by decide)⟩

/-- C10: `Model.run` unconditionally finishes with `statistics.update`,
whose channel-utilization computation divides by the transmitted-message
count `P5.tokens` with no zero guard; hence every run of the shipped net
that ends with zero transmitted messages raises `ZeroDivisionError`
instead of returning. -/
theorem run_zero_transmitted_zero_division (m n : Nat) (t_mod : Int) (stream : List Int)
    (records : List TransmissionRecord) (p5 : Position)
    (h5 : getPos (settle_positions (runState m n (initModel t_mod stream)).positions
            (runState m n (initModel t_mod stream)).current_time) "P5" = some p5)
    (htok : p5.tokens = 0) :
    (modelRun m n (initModel t_mod stream) records).2 = .fail "ZeroDivisionError" := by
  have hnames : (settle_positions (runState m n (initModel t_mod stream)).positions
      (runState m n (initModel t_mod stream)).current_time).map Position.name
      = create_positions.map Position.name := by
    rw [settle_positions_names, runState_names]
    rfl
  obtain ⟨p1, h1⟩ := getPos_isSome_of_name_mem _ "P1" (by rw [hnames]; decide)
  obtain ⟨p7, h7⟩ := getPos_isSome_of_name_mem _ "P7" (by rw [hnames]; decide)
  obtain ⟨p2, h2⟩ := getPos_isSome_of_name_mem _ "P2" (by rw [hnames]; decide)
  obtain ⟨p3, h3⟩ := getPos_isSome_of_name_mem _ "P3" (by rw [hnames]; decide)
  obtain ⟨p4, h4⟩ := getPos_isSome_of_name_mem _ "P4" (by rw [hnames]; decide)
  show statisticsUpdate (runState m n (initModel t_mod stream)) records
    = .fail "ZeroDivisionError"
  simp [statisticsUpdate, h1, h5, h7, h2, h3, h4, htok]

/-- Witness for C10: the shipped net run with horizon `0` transmits
nothing, and the statistics update raises `ZeroDivisionError`. -/
theorem run_zero_transmitted_witness :
    getPos (settle_positions (runState 3 3 (initModel 0 [])).positions
      (runState 3 3 (initModel 0 [])).current_time) "P5" = some (Position.create "P5") ∧
    (Position.create "P5").tokens = 0 ∧
    (modelRun 3 3 (initModel 0 []) []).2 = .fail "ZeroDivisionError" :=
  ⟨by decide, by decide,
   run_zero_transmitted_zero_division 3 3 0 [] [] (Position.create "P5")
     (by decide) (by decide)⟩

end MSCW
